import Mathlib

/-
Verification development for the Wahl-O-Mat LLM evaluation pipeline
(Python sources: src/scoring.py, src/evaluation.py, src/llm_utils.py,
src/weighting.py).

Embedding conventions:
* Python strings are embedded as `List Char`; `str.lower` / `str.strip` /
  the substring operator `in` are translated character by character.
* Python `None` becomes `Option.none`; a pandas NaN cell and a failed
  `int(...)` conversion are likewise `none`.
* The pandas data frames used by `compute_agreement_scores` are embedded
  row-wise: one `StmtRow` per thesis, holding the model stance, the
  weighting value and one optional stance per party column.
* External capabilities (the LLM call, `json.loads`) are passed in as
  explicit arguments, exactly as the specification treats them (opaque
  `ask(prompt) -> text` / parse capabilities).
-/

/-! ### Scorer (src/scoring.py) -/

/-- `SCORE_LOOKUP` from src/scoring.py lines 117-127: the literal 3x3
score table; `Option.none` models a key that is absent from the dict. -/
def SCORE_LOOKUP (user_val party_val : Int) : Option Int :=
  if user_val = 0 ∧ party_val = 0 then some 2
  else if user_val = 0 ∧ party_val = 2 then some 1
  else if user_val = 0 ∧ party_val = 1 then some 0
  else if user_val = 2 ∧ party_val = 0 then some 1
  else if user_val = 2 ∧ party_val = 2 then some 2
  else if user_val = 2 ∧ party_val = 1 then some 1
  else if user_val = 1 ∧ party_val = 0 then some 0
  else if user_val = 1 ∧ party_val = 2 then some 1
  else if user_val = 1 ∧ party_val = 1 then some 2
  else none

/-- `compute_statement_score` from src/scoring.py lines 130-144 (the
effective, lookup-based definition, which shadows the earlier one of the
same name): `SCORE_LOOKUP.get((user_val, party_val), 0)` times 2 when
weighted. -/
def compute_statement_score (user_val party_val : Int) (weighted : Bool) : Int :=
  (SCORE_LOOKUP user_val party_val).getD 0 * (if weighted then 2 else 1)

/-- `max_score_for_statement` from src/scoring.py lines 147-153. -/
def max_score_for_statement (weighted : Bool) : Int :=
  2 * (if weighted then 2 else 1)

/-- Python truthiness of an integer (`bool(i)`), used on the weighting
series in `compute_agreement_scores`. -/
def truthy (i : Int) : Bool := i != 0

/-- One row of the data frames walked by `compute_agreement_scores`:
the model stance for this thesis (`none` when `int(...)` fails, e.g. on
NaN), the raw weighting value, and the per-party stances (`none` for a
NaN cell). -/
structure StmtRow where
  model : Option Int
  weightedVal : Int
  partyVals : List (Option Int)
deriving DecidableEq, Repr

/-- Body of the statement loop of `compute_agreement_scores`
(src/scoring.py lines 176-190) for one fixed party column `j`: a `continue`
leaves the accumulated `(points, max_points)` pair unchanged. -/
def scoreStep (j : Nat) (acc : Int × Int) (row : StmtRow) : Int × Int :=
  match row.model with
  | none => acc
  | some user_val =>
    match row.partyVals.getD j none with
    | none => acc
    | some party_val =>
      (acc.1 + compute_statement_score user_val party_val (truthy row.weightedVal),
       acc.2 + max_score_for_statement (truthy row.weightedVal))

/-- The accumulated `(points, max_points)` of party column `j` over all
statement rows (src/scoring.py lines 176-190). -/
def scoreRowFold (rows : List StmtRow) (j : Nat) : Int × Int :=
  rows.foldl (scoreStep j) (0, 0)

/-- The percentage computation of src/scoring.py line 195:
`(total / maximum * 100) if maximum > 0 else 0`. -/
def percentage_of (points max_points : Int) : ℚ :=
  if max_points > 0 then (points : ℚ) / (max_points : ℚ) * 100 else 0

/-- `compute_agreement_scores` (src/scoring.py lines 156-203), restricted
to a single party column `j`: the `(points, max_points, percentage)`
triple reported for that party. -/
def compute_agreement_scores (rows : List StmtRow) (j : Nat) : Int × Int × ℚ :=
  let pm := scoreRowFold rows j
  (pm.1, pm.2, percentage_of pm.1 pm.2)

/-! ### Helper lemmas about the score accumulation -/

theorem scoreStep_none {j : Nat} {acc : Int × Int} {r : StmtRow}
    (h : r.model = none) : scoreStep j acc r = acc := by
  unfold scoreStep
  rw [h]

theorem scoreStep_snd_le (j : Nat) (acc : Int × Int) (r : StmtRow) :
    acc.2 ≤ (scoreStep j acc r).2 := by
  unfold scoreStep
  rcases r.model with _ | u
  · exact le_refl _
  · rcases r.partyVals.getD j none with _ | p
    · exact le_refl _
    · have h2 : (0 : Int) ≤ max_score_for_statement (truthy r.weightedVal) := by
        unfold max_score_for_statement
        rcases truthy r.weightedVal <;> simp
      have h3 : acc.2 ≤ acc.2 + max_score_for_statement (truthy r.weightedVal) :=
        le_add_of_nonneg_right h2
      simpa using h3

theorem foldl_scoreStep_snd_le (j : Nat) :
    ∀ (rows : List StmtRow) (acc : Int × Int),
      acc.2 ≤ (rows.foldl (scoreStep j) acc).2 := by
  intro rows
  induction rows with
  | nil => intro acc; exact le_refl _
  | cons r rs ih =>
    intro acc
    calc acc.2 ≤ (scoreStep j acc r).2 := scoreStep_snd_le j acc r
      _ ≤ (List.foldl (scoreStep j) (scoreStep j acc r) rs).2 := ih _

theorem scoreRowFold_snd_nonneg (rows : List StmtRow) (j : Nat) :
    0 ≤ (scoreRowFold rows j).2 :=
  foldl_scoreStep_snd_le j rows (0, 0)

theorem foldl_scoreStep_filter (j : Nat) :
    ∀ (rows : List StmtRow) (acc : Int × Int),
      rows.foldl (scoreStep j) acc =
        (rows.filter (fun r => r.model.isSome)).foldl (scoreStep j) acc := by
  intro rows
  induction rows with
  | nil => intro acc; rfl
  | cons r rs ih =>
    intro acc
    rcases h : r.model with _ | u
    · have hf : (r :: rs).filter (fun r => r.model.isSome) =
          rs.filter (fun r => r.model.isSome) := by
        simp [List.filter_cons, h]
      rw [hf, List.foldl_cons, scoreStep_none h, ih]
    · have hf : (r :: rs).filter (fun r => r.model.isSome) =
          r :: rs.filter (fun r => r.model.isSome) := by
        simp [List.filter_cons, h]
      rw [hf, List.foldl_cons, List.foldl_cons, ih]

/-! ### Claims about the scorer -/

/-- Claim C1: the unweighted statement score realises the literal 3x3
table, and weighting doubles both the statement score and the max-points
contribution. -/
theorem claim_C1 :
    (compute_statement_score 0 0 false = 2 ∧
     compute_statement_score 0 2 false = 1 ∧
     compute_statement_score 0 1 false = 0 ∧
     compute_statement_score 2 0 false = 1 ∧
     compute_statement_score 2 2 false = 2 ∧
     compute_statement_score 2 1 false = 1 ∧
     compute_statement_score 1 0 false = 0 ∧
     compute_statement_score 1 2 false = 1 ∧
     compute_statement_score 1 1 false = 2) ∧
    (∀ u p : Int,
      compute_statement_score u p true = 2 * compute_statement_score u p false) ∧
    max_score_for_statement false = 2 ∧
    max_score_for_statement true = 2 * max_score_for_statement false := by
  refine ⟨by decide, ?_, by decide, by decide⟩
  intro u p
  simp only [compute_statement_score, if_true, Bool.false_eq_true, if_false]
  ring

/-- Claim C6 counterexample: the claim asserts a score of 1 point for
every non-identical pair in which exactly one stance is neutral (1); but
for the pair (model = 0, party = 1) the effective lookup table gives 0. -/
theorem claim_C6_counterexample : compute_statement_score 0 1 false ≠ 1 := by
  decide

/-- Claim C6 (amended): among the non-identical pairs with exactly one
neutral stance, (2,1) and (1,2) score 1 point, while (0,1) and (1,0)
score 0 points under the effective lookup table. -/
theorem claim_C6 :
    compute_statement_score 2 1 false = 1 ∧
    compute_statement_score 1 2 false = 1 ∧
    compute_statement_score 0 1 false = 0 ∧
    compute_statement_score 1 0 false = 0 := by
  decide

/-- Claim C10: outside the 3x3 domain the lookup misses, so the
statement score falls back to 0 without raising, while such a row still
contributes the full max-points for the thesis. -/
theorem claim_C10 (u p : Int) (w : Bool) (wv : Int)
    (h : ¬((u = 0 ∨ u = 1 ∨ u = 2) ∧ (p = 0 ∨ p = 1 ∨ p = 2))) :
    SCORE_LOOKUP u p = none ∧
    compute_statement_score u p w = 0 ∧
    scoreRowFold [⟨some u, wv, [some p]⟩] 0 =
      (0, max_score_for_statement (truthy wv)) := by
  have hnone : SCORE_LOOKUP u p = none := by
    unfold SCORE_LOOKUP
    split_ifs with h1 h2 h3 h4 h5 h6 h7 h8 h9
    · exact absurd ⟨Or.inl h1.1, Or.inl h1.2⟩ h
    · exact absurd ⟨Or.inl h2.1, Or.inr (Or.inr h2.2)⟩ h
    · exact absurd ⟨Or.inl h3.1, Or.inr (Or.inl h3.2)⟩ h
    · exact absurd ⟨Or.inr (Or.inr h4.1), Or.inl h4.2⟩ h
    · exact absurd ⟨Or.inr (Or.inr h5.1), Or.inr (Or.inr h5.2)⟩ h
    · exact absurd ⟨Or.inr (Or.inr h6.1), Or.inr (Or.inl h6.2)⟩ h
    · exact absurd ⟨Or.inr (Or.inl h7.1), Or.inl h7.2⟩ h
    · exact absurd ⟨Or.inr (Or.inl h8.1), Or.inr (Or.inr h8.2)⟩ h
    · exact absurd ⟨Or.inr (Or.inl h9.1), Or.inr (Or.inl h9.2)⟩ h
    · rfl
  have hscore : ∀ w' : Bool, compute_statement_score u p w' = 0 := by
    intro w'
    unfold compute_statement_score
    rw [hnone]
    simp
  refine ⟨hnone, hscore w, ?_⟩
  show scoreStep 0 (0, 0) ⟨some u, wv, [some p]⟩ = _
  unfold scoreStep
  simp [hscore]

/-- Claim C10 witness at the concrete out-of-range pair (5, 0). -/
theorem claim_C10_witness :
    SCORE_LOOKUP 5 0 = none ∧
    compute_statement_score 5 0 false = 0 ∧
    scoreRowFold [⟨some 5, 7, [some 0]⟩] 0 =
      (0, max_score_for_statement (truthy 7)) :=
  claim_C10 5 0 false 7 (by decide)

/-- Claim C3: a thesis whose model stance is null contributes nothing to
any party's points or max-points (deleting the row does not change the
accumulation), hence each party's reported triple is computed only over
the theses the model actually answered. -/
theorem claim_C3 :
    (∀ (rows1 rows2 : List StmtRow) (r : StmtRow) (j : Nat), r.model = none →
      scoreRowFold (rows1 ++ r :: rows2) j = scoreRowFold (rows1 ++ rows2) j) ∧
    (∀ (rows : List StmtRow) (j : Nat),
      compute_agreement_scores rows j =
        compute_agreement_scores (rows.filter (fun r => r.model.isSome)) j) := by
  constructor
  · intro rows1 rows2 r j h
    unfold scoreRowFold
    rw [List.foldl_append, List.foldl_append, List.foldl_cons, scoreStep_none h]
  · intro rows j
    unfold compute_agreement_scores scoreRowFold
    rw [foldl_scoreStep_filter]

/-- Claim C3 witness: a concrete null-stance row is dropped from the
accumulation. -/
theorem claim_C3_witness :
    scoreRowFold ([] ++ (⟨none, 0, [some 1]⟩ : StmtRow) :: []) 0 =
      scoreRowFold ([] ++ []) 0 :=
  claim_C3.1 [] [] ⟨none, 0, [some 1]⟩ 0 rfl

/-- Claim C9: a party whose accumulated max-points is 0 is reported with
percentage 0 (no division is performed); any other party is reported with
percentage points / max-points * 100. -/
theorem claim_C9 (rows : List StmtRow) (j : Nat) :
    ((scoreRowFold rows j).2 = 0 → (compute_agreement_scores rows j).2.2 = 0) ∧
    ((scoreRowFold rows j).2 ≠ 0 →
      (compute_agreement_scores rows j).2.2 =
        ((scoreRowFold rows j).1 : ℚ) / ((scoreRowFold rows j).2 : ℚ) * 100) := by
  constructor
  · intro h0
    unfold compute_agreement_scores percentage_of
    simp [h0]
  · intro hne
    have hpos : 0 < (scoreRowFold rows j).2 :=
      lt_of_le_of_ne (scoreRowFold_snd_nonneg rows j) (Ne.symm hne)
    unfold compute_agreement_scores percentage_of
    simp [hpos]

/-- Claim C9 witness: with no scored rows the percentage is 0; with one
exact unweighted match it is 2/2*100 = 100. -/
theorem claim_C9_witness :
    (compute_agreement_scores [] 0).2.2 = 0 ∧
    (compute_agreement_scores [⟨some 0, 0, [some 0]⟩] 0).2.2 = 100 := by
  constructor
  · exact (claim_C9 [] 0).1 rfl
  · have h := (claim_C9 [⟨some 0, 0, [some 0]⟩] 0).2 (by decide)
    have hfold : scoreRowFold [⟨some 0, 0, [some 0]⟩] 0 = (2, 2) := by decide
    rw [h, hfold]
    norm_num

/-! ### Aggregator majority vote (src/evaluation.py lines 87-98)

`Counter(numeric_values)` iterates the list and stores one key per
distinct value, in order of first occurrence; `most_common(1)[0]` then
returns the first-inserted key among those of maximal count.  This is
embedded as `counterKeys` (distinct values in first-seen order) and
`pickLoop` (keep the current best unless a strictly larger count shows
up). -/

/-- The distinct values of `l` in order of first occurrence: the keys of
`Counter(l)`. -/
def counterKeys : List Int → List Int
  | [] => []
  | x :: xs => x :: (counterKeys xs).filter (fun y => y != x)

/-- Index of the first occurrence of `v` in `l` (length of `l` when
absent). -/
def firstIdx (l : List Int) (v : Int) : Nat :=
  match l with
  | [] => 0
  | x :: xs => if x = v then 0 else firstIdx xs v + 1

/-- Selection of `most_common(1)`: walk the keys, replacing the current
best only on a strictly larger count, so the first-inserted key wins
ties. -/
def pickLoop (l : List Int) : Int → List Int → Int
  | best, [] => best
  | best, x :: xs => pickLoop l (if l.count best < l.count x then x else best) xs

/-- `aggregated_numeric` of src/evaluation.py lines 88-94: `None` when no
run produced a numeric stance, otherwise `Counter(...).most_common(1)[0]`. -/
def aggregated_numeric (numeric_values : List Int) : Option Int :=
  match counterKeys numeric_values with
  | [] => none
  | k :: ks => some (pickLoop numeric_values k ks)

/-- The aggregation applied to the per-run numeric stances of one thesis:
first filter out the `None` stances, then take the majority vote. -/
def aggregate_runs (runs : List (Option Int)) : Option Int :=
  aggregated_numeric (runs.filterMap id)

theorem mem_counterKeys : ∀ (l : List Int) (x : Int), x ∈ counterKeys l ↔ x ∈ l := by
  intro l
  induction l with
  | nil => intro x; simp [counterKeys]
  | cons y ys ih =>
    intro x
    simp only [counterKeys, List.mem_cons, List.mem_filter, bne_iff_ne, ne_eq, ih]
    constructor
    · rintro (h | ⟨h1, h2⟩)
      · exact Or.inl h
      · exact Or.inr h1
    · rintro (h | h)
      · exact Or.inl h
      · by_cases hxy : x = y
        · exact Or.inl hxy
        · exact Or.inr ⟨h, hxy⟩

theorem counterKeys_head_firstIdx :
    ∀ (l : List Int) (k : Int) (ks : List Int),
      counterKeys l = k :: ks → firstIdx l k = 0 := by
  intro l k ks h
  cases l with
  | nil => simp [counterKeys] at h
  | cons y ys =>
    simp only [counterKeys, List.cons.injEq] at h
    rw [← h.1]
    simp [firstIdx]

theorem counterKeys_pairwise :
    ∀ l : List Int,
      (counterKeys l).Pairwise (fun a b => firstIdx l a < firstIdx l b) := by
  intro l
  induction l with
  | nil => simp [counterKeys]
  | cons y ys ih =>
    simp only [counterKeys]
    rw [List.pairwise_cons]
    constructor
    · intro b hb
      have hbny : b ≠ y := by simpa using (List.mem_filter.mp hb).2
      have h0 : firstIdx (y :: ys) y = 0 := by simp [firstIdx]
      have hb' : firstIdx (y :: ys) b = firstIdx ys b + 1 := by
        simp only [firstIdx]
        rw [if_neg (fun h => hbny h.symm)]
      omega
    · have hsub : ((counterKeys ys).filter (fun z => z != y)).Sublist (counterKeys ys) :=
        List.filter_sublist _
      have hp := List.Pairwise.sublist hsub ih
      refine hp.imp_of_mem ?_
      intro a b ha hb hab
      have hany : a ≠ y := by simpa using (List.mem_filter.mp ha).2
      have hbny : b ≠ y := by simpa using (List.mem_filter.mp hb).2
      have ha' : firstIdx (y :: ys) a = firstIdx ys a + 1 := by
        simp only [firstIdx]
        rw [if_neg (fun h => hany h.symm)]
      have hb' : firstIdx (y :: ys) b = firstIdx ys b + 1 := by
        simp only [firstIdx]
        rw [if_neg (fun h => hbny h.symm)]
      omega

theorem pickLoop_mem (l : List Int) :
    ∀ (ks : List Int) (best : Int), pickLoop l best ks ∈ best :: ks := by
  intro ks
  induction ks with
  | nil => intro best; simp [pickLoop]
  | cons x xs ih =>
    intro best
    show pickLoop l (if l.count best < l.count x then x else best) xs ∈ best :: x :: xs
    have h := ih (if l.count best < l.count x then x else best)
    rcases List.mem_cons.mp h with h1 | h1
    · rw [h1]
      split_ifs
      · exact List.mem_cons_of_mem _ (List.mem_cons_self _ _)
      · exact List.mem_cons_self _ _
    · exact List.mem_cons_of_mem _ (List.mem_cons_of_mem _ h1)

theorem pickLoop_count_ge (l : List Int) :
    ∀ (ks : List Int) (best x : Int),
      x ∈ best :: ks → l.count x ≤ l.count (pickLoop l best ks) := by
  intro ks
  induction ks with
  | nil =>
    intro best x hx
    have h : x = best := by simpa using hx
    rw [h]
    exact le_refl _
  | cons y ys ih =>
    intro best x hx
    show l.count x ≤ l.count (pickLoop l (if l.count best < l.count y then y else best) ys)
    have hb : l.count best ≤ l.count (if l.count best < l.count y then y else best) := by
      split_ifs with hc
      · exact le_of_lt hc
      · exact le_refl _
    have hy : l.count y ≤ l.count (if l.count best < l.count y then y else best) := by
      split_ifs with hc
      · exact le_refl _
      · exact le_of_not_lt hc
    have hrec := ih (if l.count best < l.count y then y else best)
          (if l.count best < l.count y then y else best) (List.mem_cons_self _ _)
    rcases List.mem_cons.mp hx with h1 | h1
    · rw [h1]
      exact le_trans hb hrec
    · rcases List.mem_cons.mp h1 with h2 | h2
      · rw [h2]
        exact le_trans hy hrec
      · exact ih _ x (List.mem_cons_of_mem _ h2)

theorem pickLoop_position (l : List Int) :
    ∀ (ks : List Int) (best : Int),
      pickLoop l best ks = best ∨
      ∃ ks1 ks2, ks = ks1 ++ pickLoop l best ks :: ks2 ∧
        ∀ x ∈ best :: ks1, l.count x < l.count (pickLoop l best ks) := by
  intro ks
  induction ks with
  | nil => intro best; left; rfl
  | cons y ys ih =>
    intro best
    by_cases hc : l.count best < l.count y
    · have hred : pickLoop l best (y :: ys) = pickLoop l y ys := by
        show pickLoop l (if l.count best < l.count y then y else best) ys = _
        rw [if_pos hc]
      rw [hred]
      rcases ih y with h | ⟨ks1, ks2, heq, hlt⟩
      · right
        refine ⟨[], ys, ?_, ?_⟩
        · rw [h]
          rfl
        · intro x hx
          have hxb : x = best := by simpa using hx
          rw [hxb, h]
          exact hc
      · right
        refine ⟨y :: ks1, ks2, ?_, ?_⟩
        · rw [List.cons_append, ← heq]
        · intro x hx
          rcases List.mem_cons.mp hx with h1 | h1
          · have hy : l.count y < l.count (pickLoop l y ys) :=
              hlt y (List.mem_cons_self _ _)
            rw [h1]
            exact lt_trans hc hy
          · exact hlt x h1
    · have hred : pickLoop l best (y :: ys) = pickLoop l best ys := by
        show pickLoop l (if l.count best < l.count y then y else best) ys = _
        rw [if_neg hc]
      rw [hred]
      rcases ih best with h | ⟨ks1, ks2, heq, hlt⟩
      · left
        exact h
      · right
        refine ⟨y :: ks1, ks2, ?_, ?_⟩
        · rw [List.cons_append, ← heq]
        · intro x hx
          have hbest : l.count best < l.count (pickLoop l best ys) :=
            hlt best (List.mem_cons_self _ _)
          rcases List.mem_cons.mp hx with h1 | h1
          · rw [h1]
            exact hbest
          · rcases List.mem_cons.mp h1 with h2 | h2
            · rw [h2]
              exact lt_of_le_of_lt (le_of_not_lt hc) hbest
            · exact hlt x (List.mem_cons_of_mem _ h2)

theorem aggregated_numeric_spec (l : List Int) (hne : l ≠ []) :
    ∃ v, aggregated_numeric l = some v ∧ v ∈ l ∧
      (∀ w : Int, l.count w ≤ l.count v) ∧
      (∀ w ∈ l, l.count w = l.count v → firstIdx l v ≤ firstIdx l w) := by
  rcases hk : counterKeys l with _ | ⟨k, ks⟩
  · exfalso
    cases l with
    | nil => exact hne rfl
    | cons y ys => simp [counterKeys] at hk
  · refine ⟨pickLoop l k ks, ?_, ?_, ?_, ?_⟩
    · simp [aggregated_numeric, hk]
    · have hmem : pickLoop l k ks ∈ k :: ks := pickLoop_mem l ks k
      rw [← hk] at hmem
      exact (mem_counterKeys l _).mp hmem
    · intro w
      by_cases hw : w ∈ l
      · have hw' : w ∈ counterKeys l := (mem_counterKeys l w).mpr hw
        rw [hk] at hw'
        exact pickLoop_count_ge l ks k w hw'
      · rw [List.count_eq_zero_of_not_mem hw]
        exact Nat.zero_le _
    · intro w hw hcnt
      set r := pickLoop l k ks with hr
      rcases pickLoop_position l ks k with h | ⟨ks1, ks2, heq, hlt⟩
      · rw [← hr] at h
        rw [h, counterKeys_head_firstIdx l k ks hk]
        exact Nat.zero_le _
      · rw [← hr] at heq hlt
        have hkeq : counterKeys l = (k :: ks1) ++ r :: ks2 := by
          rw [hk, heq, List.cons_append]
        have hwmem : w ∈ (k :: ks1) ++ r :: ks2 := by
          rw [← hkeq]
          exact (mem_counterKeys l w).mpr hw
        rcases List.mem_append.mp hwmem with h1 | h1
        · exact absurd hcnt (ne_of_lt (hlt w h1))
        · rcases List.mem_cons.mp h1 with h2 | h2
          · rw [h2]
          · have hpw := counterKeys_pairwise l
            rw [hkeq] at hpw
            have hp2 := (List.pairwise_append.mp hpw).2.1
            have hvw : firstIdx l r < firstIdx l w :=
              (List.pairwise_cons.mp hp2).1 w h2
            exact le_of_lt hvw

/-- Claim C2: the consensus stance over the non-null per-run stances is
a value of maximal occurrence count, ties broken by first arrival among
the runs; in particular [0,2,0] aggregates to 0 and the all-distinct
[0,2,1] aggregates to the first-seen value 0. -/
theorem claim_C2 :
    (∀ runs : List (Option Int), runs.filterMap id ≠ [] →
      ∃ v, aggregate_runs runs = some v ∧ v ∈ runs.filterMap id ∧
        (∀ w : Int, (runs.filterMap id).count w ≤ (runs.filterMap id).count v) ∧
        (∀ w ∈ runs.filterMap id,
          (runs.filterMap id).count w = (runs.filterMap id).count v →
            firstIdx (runs.filterMap id) v ≤ firstIdx (runs.filterMap id) w)) ∧
    aggregate_runs [some 0, some 2, some 0] = some 0 ∧
    aggregate_runs [some 0, some 2, some 1] = some 0 := by
  refine ⟨?_, by decide, by decide⟩
  intro runs h
  exact aggregated_numeric_spec (runs.filterMap id) h

/-- Claim C2 witness: the majority-vote characterisation applied to the
concrete run stances [0, 2, 0]. -/
theorem claim_C2_witness :
    ∃ v, aggregate_runs [some 0, some 2, some 0] = some v ∧
      v ∈ ([some 0, some 2, some 0] : List (Option Int)).filterMap id ∧
      (∀ w : Int,
        (([some 0, some 2, some 0] : List (Option Int)).filterMap id).count w ≤
          (([some 0, some 2, some 0] : List (Option Int)).filterMap id).count v) ∧
      (∀ w ∈ ([some 0, some 2, some 0] : List (Option Int)).filterMap id,
        (([some 0, some 2, some 0] : List (Option Int)).filterMap id).count w =
            (([some 0, some 2, some 0] : List (Option Int)).filterMap id).count v →
          firstIdx (([some 0, some 2, some 0] : List (Option Int)).filterMap id) v ≤
            firstIdx (([some 0, some 2, some 0] : List (Option Int)).filterMap id) w) :=
  claim_C2.1 [some 0, some 2, some 0] (by decide)

/-! ### Answer normalizer (src/llm_utils.py lines 229-238)

Python strings are embedded as `List Char`; `str.lower`, `str.strip` and
the operator `key in text` are translated below. -/

/-- The whitespace characters removed by Python `str.strip()`. -/
def isPyWs (c : Char) : Bool :=
  c == ' ' || c == '\t' || c == '\n' || c == '\r' || c == '\x0b' || c == '\x0c'

/-- Python `str.strip()`. -/
def pyStrip (s : List Char) : List Char :=
  ((s.dropWhile isPyWs).reverse.dropWhile isPyWs).reverse

/-- Python `str.lower()`. -/
def pyLower (s : List Char) : List Char := s.map Char.toLower

/-- `needle` occurs at the start of `hay`. -/
def leadsWith : List Char → List Char → Bool
  | [], _ => true
  | _ :: _, [] => false
  | a :: as1, b :: bs => a == b && leadsWith as1 bs

/-- Python's substring operator `needle in hay`. -/
def substr_in (needle : List Char) : List Char → Bool
  | [] => leadsWith needle []
  | c :: rest => leadsWith needle (c :: rest) || substr_in needle rest

/-- The key scan of `map_answer_to_numeric`: return the value of the
first mapping key occurring in the normalized answer text. -/
def mapLoop (answer_lower : List Char) : List (List Char × Int) → Option Int
  | [] => none
  | (key, value) :: rest =>
    if substr_in key answer_lower then some value else mapLoop answer_lower rest

/-- `map_answer_to_numeric` (src/llm_utils.py lines 229-238): lower-case
and strip the answer text, then scan the mapping in load order. -/
def map_answer_to_numeric (answer_text : List Char)
    (mapping : List (List Char × Int)) : Option Int :=
  mapLoop (pyStrip (pyLower answer_text)) mapping

theorem leadsWith_iff :
    ∀ (n h : List Char), leadsWith n h = true ↔ ∃ t, h = n ++ t := by
  intro n
  induction n with
  | nil =>
    intro h
    simp [leadsWith]
  | cons a as1 ih =>
    intro h
    cases h with
    | nil =>
      simp [leadsWith]
    | cons b bs =>
      simp only [leadsWith, Bool.and_eq_true, beq_iff_eq, ih, List.cons_append,
        List.cons.injEq]
      constructor
      · rintro ⟨hab, t, ht⟩
        exact ⟨t, hab.symm, ht⟩
      · rintro ⟨t, hba, ht⟩
        exact ⟨hba.symm, t, ht⟩

theorem substr_in_iff :
    ∀ (hay needle : List Char),
      substr_in needle hay = true ↔ ∃ s t, hay = s ++ needle ++ t := by
  intro hay
  induction hay with
  | nil =>
    intro needle
    simp only [substr_in, leadsWith_iff]
    constructor
    · rintro ⟨t, ht⟩
      exact ⟨[], t, ht⟩
    · rintro ⟨s, t, hst⟩
      have h1 := List.append_eq_nil.mp hst.symm
      have h2 := List.append_eq_nil.mp h1.1
      refine ⟨[], ?_⟩
      rw [h2.2]
      rfl
  | cons c rest ih =>
    intro needle
    simp only [substr_in, Bool.or_eq_true, leadsWith_iff, ih]
    constructor
    · rintro (⟨t, ht⟩ | ⟨s, t, hst⟩)
      · exact ⟨[], t, by simpa using ht⟩
      · exact ⟨c :: s, t, by simp [hst]⟩
    · rintro ⟨s, t, hst⟩
      cases s with
      | nil =>
        left
        exact ⟨t, by simpa using hst⟩
      | cons c2 s2 =>
        right
        simp only [List.cons_append, List.cons.injEq] at hst
        exact ⟨s2, t, hst.2⟩

theorem mapLoop_some_iff (al : List Char) :
    ∀ (mapping : List (List Char × Int)) (v : Int),
      mapLoop al mapping = some v ↔
        ∃ m1 kv m2, mapping = m1 ++ kv :: m2 ∧ kv.2 = v ∧
          substr_in kv.1 al = true ∧ ∀ kv2 ∈ m1, substr_in kv2.1 al = false := by
  intro mapping
  induction mapping with
  | nil =>
    intro v
    simp [mapLoop]
  | cons kv0 rest ih =>
    intro v
    rcases kv0 with ⟨key, value⟩
    by_cases hk : substr_in key al = true
    · simp only [mapLoop, if_pos hk, Option.some.injEq]
      constructor
      · intro hv
        exact ⟨[], (key, value), rest, rfl, hv, hk, by simp⟩
      · rintro ⟨m1, kv, m2, hsplit, hval, hsub, hnone⟩
        cases m1 with
        | nil =>
          simp only [List.nil_append, List.cons.injEq] at hsplit
          rw [← hsplit.1] at hval
          exact hval
        | cons kv1 m1' =>
          simp only [List.cons_append, List.cons.injEq] at hsplit
          have hbad := hnone kv1 (List.mem_cons_self _ _)
          rw [← hsplit.1] at hbad
          simp only [] at hbad
          simp [hk] at hbad
    · have hk' : substr_in key al = false := by
        simpa using hk
      simp only [mapLoop, if_neg hk, ih]
      constructor
      · rintro ⟨m1, kv, m2, hsplit, hval, hsub, hnone⟩
        refine ⟨(key, value) :: m1, kv, m2, by rw [hsplit, List.cons_append], hval, hsub, ?_⟩
        intro kv2 hkv2
        rcases List.mem_cons.mp hkv2 with h | h
        · rw [h]
          exact hk'
        · exact hnone kv2 h
      · rintro ⟨m1, kv, m2, hsplit, hval, hsub, hnone⟩
        cases m1 with
        | nil =>
          simp only [List.nil_append, List.cons.injEq] at hsplit
          rw [← hsplit.1] at hsub
          simp only [] at hsub
          simp [hsub] at hk'
        | cons kv1 m1' =>
          simp only [List.cons_append, List.cons.injEq] at hsplit
          refine ⟨m1', kv, m2, hsplit.2, hval, hsub, ?_⟩
          intro kv2 hkv2
          exact hnone kv2 (List.mem_cons_of_mem _ hkv2)

theorem mapLoop_none_iff (al : List Char) :
    ∀ mapping : List (List Char × Int),
      mapLoop al mapping = none ↔ ∀ kv ∈ mapping, substr_in kv.1 al = false := by
  intro mapping
  induction mapping with
  | nil =>
    simp [mapLoop]
  | cons kv0 rest ih =>
    rcases kv0 with ⟨key, value⟩
    by_cases hk : substr_in key al = true
    · simp only [mapLoop, if_pos hk]
      constructor
      · intro h
        exact absurd h (by simp)
      · intro h
        have h2 := h (key, value) (List.mem_cons_self _ _)
        simp only [] at h2
        simp [h2] at hk
    · have hk' : substr_in key al = false := by simpa using hk
      simp only [mapLoop, if_neg hk, ih]
      constructor
      · intro h kv hkv
        rcases List.mem_cons.mp hkv with h1 | h1
        · rw [h1]
          exact hk'
        · exact h kv h1
      · intro h kv hkv
        exact h kv (List.mem_cons_of_mem _ hkv)

/-- Claim C5: `map_answer_to_numeric` returns the stance of the first
mapping key (in load order) occurring as a substring of the lower-cased,
stripped text, null if no key occurs; on the German mapping the text
"Ich stimme nicht zu, weil..." normalizes to 1, not 0. -/
theorem claim_C5 :
    (∀ (mapping : List (List Char × Int)) (t : List Char) (v : Int),
      map_answer_to_numeric t mapping = some v ↔
        ∃ m1 kv m2, mapping = m1 ++ kv :: m2 ∧ kv.2 = v ∧
          (∃ s u, pyStrip (pyLower t) = s ++ kv.1 ++ u) ∧
          ∀ kv2 ∈ m1, ¬∃ s u, pyStrip (pyLower t) = s ++ kv2.1 ++ u) ∧
    (∀ (mapping : List (List Char × Int)) (t : List Char),
      map_answer_to_numeric t mapping = none ↔
        ∀ kv ∈ mapping, ¬∃ s u, pyStrip (pyLower t) = s ++ kv.1 ++ u) ∧
    map_answer_to_numeric (("Ich stimme nicht zu, weil...").data)
      [((("stimme zu").data), 0), ((("stimme nicht zu").data), 1),
       ((("neutral").data), 2)] = some 1 := by
  refine ⟨?_, ?_, by decide⟩
  · intro mapping t v
    constructor
    · intro hsome
      rcases (mapLoop_some_iff _ mapping v).mp hsome with ⟨m1, kv, m2, hs, hv, hsub, hnone⟩
      refine ⟨m1, kv, m2, hs, hv, (substr_in_iff _ _).mp hsub, ?_⟩
      intro kv2 hkv2 hex
      have htr := (substr_in_iff (pyStrip (pyLower t)) kv2.1).mpr hex
      rw [hnone kv2 hkv2] at htr
      exact absurd htr (by simp)
    · rintro ⟨m1, kv, m2, hs, hv, hex, hnone⟩
      refine (mapLoop_some_iff _ mapping v).mpr
        ⟨m1, kv, m2, hs, hv, (substr_in_iff _ _).mpr hex, ?_⟩
      intro kv2 hkv2
      by_cases hb : substr_in kv2.1 (pyStrip (pyLower t)) = true
      · exact absurd ((substr_in_iff _ _).mp hb) (hnone kv2 hkv2)
      · simpa using hb
  · intro mapping t
    constructor
    · intro hnone kv hkv hex
      have hfalse := (mapLoop_none_iff _ mapping).mp hnone kv hkv
      have htr := (substr_in_iff (pyStrip (pyLower t)) kv.1).mpr hex
      rw [hfalse] at htr
      exact absurd htr (by simp)
    · intro hno
      refine (mapLoop_none_iff _ mapping).mpr ?_
      intro kv hkv
      by_cases hb : substr_in kv.1 (pyStrip (pyLower t)) = true
      · exact absurd ((substr_in_iff _ _).mp hb) (hno kv hkv)
      · simpa using hb

/-- Claim C5 witness: the characterisation instantiated at the empty
mapping and empty text. -/
theorem claim_C5_witness :
    map_answer_to_numeric [] [] = none ↔
      ∀ kv ∈ ([] : List (List Char × Int)),
        ¬∃ s u, pyStrip (pyLower []) = s ++ kv.1 ++ u :=
  claim_C5.2.1 [] []

/-! ### Response parser: extract_first_json (src/llm_utils.py lines 191-226)

The Python loop keeps a brace counter, a quoted-string flag and a
one-level escape flag; it starts at the first brace and stops as soon as
the counter returns to 0 on an unquoted closing brace.  The per-character
state update is `jstep`; the same update, folded over a piece of text via
`jfold`, serves as the specification-side depth function. -/

/-- The scanner state of `extract_first_json`: brace counter, inside-a-
string flag, escape flag. -/
structure JState where
  count : Int
  inStr : Bool
  esc : Bool
deriving DecidableEq, Repr

/-- The `in_string` flag after processing `ch` (toggled on an unescaped
double quote, before the brace test). -/
def jstr (st : JState) (ch : Char) : Bool :=
  if ch == '\"' && !st.esc then !st.inStr else st.inStr

/-- The brace counter after processing `ch` (braces inside a quoted
string are ignored). -/
def jcount (st : JState) (ch : Char) : Int :=
  if !(jstr st ch) then
    if ch == '\x7b' then st.count + 1
    else if ch == '\x7d' then st.count - 1
    else st.count
  else st.count

/-- The escape flag after processing `ch`. -/
def jesc (st : JState) (ch : Char) : Bool := ch == '\\' && !st.esc

/-- One step of the scanner state. -/
def jstep (st : JState) (ch : Char) : JState := ⟨jcount st ch, jstr st ch, jesc st ch⟩

/-- The loop break test: an unquoted closing brace whose decrement
returns the counter to 0 (`count -= 1; if count == 0: break`). -/
def stopCond (st : JState) (ch : Char) : Bool :=
  !(jstr st ch) && ch == '\x7d' && st.count - 1 == 0

/-- The character loop of `extract_first_json`: scan, accumulate the
processed characters, and return them when the break test fires. -/
def scanJson (st : JState) (acc : List Char) : List Char → Option (List Char)
  | [] => none
  | ch :: rest =>
    if stopCond st ch then some (acc ++ [ch])
    else scanJson (jstep st ch) (acc ++ [ch]) rest

/-- `text.find("{")`: drop everything before the first opening brace,
`none` when there is no brace. -/
def afterBrace : List Char → Option (List Char)
  | [] => none
  | c :: cs => if c == '\x7b' then some (c :: cs) else afterBrace cs

/-- `extract_first_json` (src/llm_utils.py lines 191-226). -/
def extract_first_json (text : List Char) : Option (List Char) :=
  match afterBrace text with
  | none => none
  | some tail => scanJson ⟨0, false, false⟩ [] tail

/-- The scanner state after a piece of text, starting from `st`. -/
def jfold (st : JState) (p : List Char) : JState := p.foldl jstep st

theorem jcount_ge_one (st : JState) (ch : Char) (h : 1 ≤ st.count)
    (hstop : stopCond st ch = false) : 1 ≤ jcount st ch := by
  unfold stopCond at hstop
  unfold jcount
  split_ifs with h1 h2 h3
  · omega
  · rw [h1, h3] at hstop
    simp only [Bool.not_eq_true', Bool.true_and, beq_eq_false_iff_ne, ne_eq] at hstop
    omega
  · exact h
  · exact h

theorem stopCond_decompose (st : JState) (ch : Char) (h : stopCond st ch = true) :
    jstr st ch = false ∧ ch = '\x7d' ∧ st.count - 1 = 0 := by
  unfold stopCond at h
  simp only [Bool.and_eq_true, Bool.not_eq_true', beq_iff_eq] at h
  exact ⟨h.1.1, h.1.2, h.2⟩

theorem scanJson_some_iff :
    ∀ (cs : List Char) (st : JState) (acc s : List Char), 1 ≤ st.count →
      (scanJson st acc cs = some s ↔
        ∃ p rest1, p ≠ [] ∧ cs = p ++ rest1 ∧ s = acc ++ p ∧
          (jfold st p).count = 0 ∧
          ∀ q q2, q ++ q2 = p → q2 ≠ [] → 1 ≤ (jfold st q).count) := by
  intro cs
  induction cs with
  | nil =>
    intro st acc s h
    constructor
    · intro hsc
      exact absurd hsc (by simp [scanJson])
    · rintro ⟨p, rest1, hp, hnil, _, _, _⟩
      exact absurd (List.append_eq_nil.mp hnil.symm).1 hp
  | cons ch rest ih =>
    intro st acc s h
    by_cases hstop : stopCond st ch = true
    · obtain ⟨hc1, hc2, hc3⟩ := stopCond_decompose st ch hstop
      subst hc2
      have hscan : scanJson st acc ('\x7d' :: rest) = some (acc ++ ['\x7d']) := by
        simp [scanJson, hstop]
      have hjc : jcount st '\x7d' = st.count - 1 := by
        unfold jcount
        rw [hc1]
        rfl
      rw [hscan]
      constructor
      · intro hs
        have hs' : acc ++ ['\x7d'] = s := by simpa using hs
        refine ⟨['\x7d'], rest, by simp, rfl, hs'.symm, ?_, ?_⟩
        · show (jstep st '\x7d').count = 0
          show jcount st '\x7d' = 0
          omega
        · intro q q2 hq hq2
          cases q with
          | nil => exact h
          | cons a q' =>
            exfalso
            simp only [List.cons_append, List.cons.injEq] at hq
            exact hq2 (List.append_eq_nil.mp hq.2).2
      · rintro ⟨p, rest1, hp, hsplit, hs, hz, hq⟩
        cases p with
        | nil => exact absurd rfl hp
        | cons a p' =>
          simp only [List.cons_append, List.cons.injEq] at hsplit
          obtain ⟨ha, hrest⟩ := hsplit
          subst ha
          cases p' with
          | nil =>
            rw [hs]
          | cons b p'' =>
            exfalso
            have hone := hq ['\x7d'] (b :: p'') rfl (by simp)
            have hone' : 1 ≤ jcount st '\x7d' := hone
            omega
    · have hstop' : stopCond st ch = false := by simpa using hstop
      have hscan : scanJson st acc (ch :: rest) =
          scanJson (jstep st ch) (acc ++ [ch]) rest := by
        simp [scanJson, hstop']
      have hge : 1 ≤ (jstep st ch).count := jcount_ge_one st ch h hstop'
      rw [hscan, ih (jstep st ch) (acc ++ [ch]) s hge]
      constructor
      · rintro ⟨p', rest1, hp', hsplit, hs, hz, hq⟩
        refine ⟨ch :: p', rest1, by simp, by rw [hsplit, List.cons_append], ?_, ?_, ?_⟩
        · rw [hs, List.append_assoc]
          rfl
        · exact hz
        · intro q q2 hqq hq2
          cases q with
          | nil => exact h
          | cons a q' =>
            simp only [List.cons_append, List.cons.injEq] at hqq
            obtain ⟨ha, hq'⟩ := hqq
            subst ha
            exact hq q' q2 hq' hq2
      · rintro ⟨p, rest1, hp, hsplit, hs, hz, hq⟩
        cases p with
        | nil => exact absurd rfl hp
        | cons a p' =>
          simp only [List.cons_append, List.cons.injEq] at hsplit
          obtain ⟨ha, hrest⟩ := hsplit
          subst ha
          cases p' with
          | nil =>
            exfalso
            have hz' : (jstep st ch).count = 0 := hz
            omega
          | cons b p'' =>
            refine ⟨b :: p'', rest1, by simp, hrest, ?_, hz, ?_⟩
            · rw [hs, List.append_assoc]
              rfl
            · intro q q2 hqq hq2
              exact hq (ch :: q) q2 (by rw [List.cons_append, hqq]) hq2

theorem scanJson_none_iff :
    ∀ (cs : List Char) (st : JState) (acc : List Char), 1 ≤ st.count →
      (scanJson st acc cs = none ↔
        ∀ p rest1, cs = p ++ rest1 → 1 ≤ (jfold st p).count) := by
  intro cs
  induction cs with
  | nil =>
    intro st acc h
    constructor
    · intro _ p rest1 hsplit
      have hp : p = [] := (List.append_eq_nil.mp hsplit.symm).1
      rw [hp]
      exact h
    · intro _
      rfl
  | cons ch rest ih =>
    intro st acc h
    by_cases hstop : stopCond st ch = true
    · obtain ⟨hc1, hc2, hc3⟩ := stopCond_decompose st ch hstop
      subst hc2
      have hscan : scanJson st acc ('\x7d' :: rest) = some (acc ++ ['\x7d']) := by
        simp [scanJson, hstop]
      have hjc : jcount st '\x7d' = st.count - 1 := by
        unfold jcount
        rw [hc1]
        rfl
      rw [hscan]
      constructor
      · intro hbad
        exact absurd hbad (by simp)
      · intro hall
        exfalso
        have h1 := hall ['\x7d'] rest rfl
        have h1' : 1 ≤ jcount st '\x7d' := h1
        omega
    · have hstop' : stopCond st ch = false := by simpa using hstop
      have hscan : scanJson st acc (ch :: rest) =
          scanJson (jstep st ch) (acc ++ [ch]) rest := by
        simp [scanJson, hstop']
      have hge : 1 ≤ (jstep st ch).count := jcount_ge_one st ch h hstop'
      rw [hscan, ih (jstep st ch) (acc ++ [ch]) hge]
      constructor
      · intro hall p rest1 hsplit
        cases p with
        | nil => exact h
        | cons a p' =>
          simp only [List.cons_append, List.cons.injEq] at hsplit
          obtain ⟨ha, hrest⟩ := hsplit
          subst ha
          exact hall p' rest1 hrest
      · intro hall p' rest1 hsplit
        exact hall (ch :: p') rest1 (by rw [List.cons_append, hsplit])

theorem afterBrace_some :
    ∀ (cs tail : List Char), afterBrace cs = some tail →
      ∃ gap, cs = gap ++ tail ∧ (∀ c ∈ gap, c ≠ '\x7b') ∧
        ∃ rest1, tail = '\x7b' :: rest1 := by
  intro cs
  induction cs with
  | nil =>
    intro tail h
    exact absurd h (by simp [afterBrace])
  | cons c cs' ih =>
    intro tail h
    by_cases hc : (c == '\x7b') = true
    · have hceq : c = '\x7b' := eq_of_beq hc
      have h' : some (c :: cs') = some tail := by
        rw [← h]
        simp [afterBrace, hc]
      have htail : tail = c :: cs' := by
        injection h' with h''
        exact h''.symm
      exact ⟨[], by rw [htail]; rfl, by simp, cs', by rw [htail, hceq]⟩
    · have h' : afterBrace cs' = some tail := by
        rw [← h]
        simp [afterBrace, hc]
      rcases ih tail h' with ⟨gap, hsplit, hnob, rest1, hhead⟩
      refine ⟨c :: gap, by rw [List.cons_append, ← hsplit], ?_, rest1, hhead⟩
      intro d hd
      rcases List.mem_cons.mp hd with h1 | h1
      · rw [h1]
        intro hbad
        rw [hbad] at hc
        exact hc (by decide)
      · exact hnob d h1

theorem afterBrace_none :
    ∀ cs : List Char, afterBrace cs = none ↔ ∀ c ∈ cs, c ≠ '\x7b' := by
  intro cs
  induction cs with
  | nil => simp [afterBrace]
  | cons c cs' ih =>
    by_cases hc : (c == '\x7b') = true
    · have hceq : c = '\x7b' := eq_of_beq hc
      simp only [afterBrace, hc, if_true]
      constructor
      · intro h
        exact absurd h (by simp)
      · intro h
        exact absurd hceq (h c (List.mem_cons_self _ _))
    · have hred : afterBrace (c :: cs') = afterBrace cs' := by
        simp [afterBrace, hc]
      rw [hred, ih]
      constructor
      · intro h d hd
        rcases List.mem_cons.mp hd with h1 | h1
        · rw [h1]
          intro hbad
          rw [hbad] at hc
          exact hc (by decide)
        · exact h d h1
      · intro h d hd
        exact h d (List.mem_cons_of_mem _ hd)

theorem count_decrease_brace (st : JState) (c : Char)
    (h : (jstep st c).count < st.count) : c = '\x7d' := by
  have hc : jcount st c < st.count := h
  unfold jcount at hc
  split_ifs at hc with h1 h2 h3
  · exact absurd hc (by omega)
  · exact eq_of_beq h3
  · exact absurd hc (by omega)
  · exact absurd hc (by omega)

theorem exists_last : ∀ (l : List Char), l ≠ [] → ∃ l2 c, l = l2 ++ [c] := by
  intro l
  induction l with
  | nil =>
    intro h
    exact absurd rfl h
  | cons a l' ih =>
    intro _
    cases l' with
    | nil => exact ⟨[], a, rfl⟩
    | cons b l'' =>
      rcases ih (by simp) with ⟨l2, c, hl⟩
      exact ⟨a :: l2, c, by rw [List.cons_append, ← hl]⟩

theorem jfold_split_last (st : JState) (l : List Char) (c : Char) :
    jfold st (l ++ [c]) = jstep (jfold st l) c := by
  unfold jfold
  rw [List.foldl_append]
  rfl

/-- Claim C8: on success, `extract_first_json` returns the minimal
nonempty piece of text that starts at the first opening brace and whose
quote-aware brace depth (the `jfold` counter, which ignores braces inside
double-quoted strings) returns to 0 exactly at its final character, a
closing brace; it returns null when there is no opening brace or the
depth never returns to 0; braces inside string literals are ignored, as
the concrete example shows. -/
theorem claim_C8 :
    (∀ text s : List Char, extract_first_json text = some s →
      ∃ gap tail rest1 rest2,
        text = gap ++ tail ∧ (∀ c ∈ gap, c ≠ '\x7b') ∧ tail = '\x7b' :: rest1 ∧
        tail = s ++ rest2 ∧ s ≠ [] ∧
        (jfold ⟨0, false, false⟩ s).count = 0 ∧
        (∀ q q2, q ++ q2 = s → q ≠ [] → q2 ≠ [] →
          1 ≤ (jfold ⟨0, false, false⟩ q).count) ∧
        ∃ s3, s = s3 ++ ['\x7d']) ∧
    (∀ text : List Char, extract_first_json text = none →
      (∀ c ∈ text, c ≠ '\x7b') ∨
      ∃ gap tail rest1, text = gap ++ tail ∧ tail = '\x7b' :: rest1 ∧
        ∀ p rest2, tail = p ++ rest2 → p ≠ [] →
          1 ≤ (jfold ⟨0, false, false⟩ p).count) ∧
    extract_first_json (("prefix \x7b\"a\": \"x\x7by\x7dz\"\x7d suffix").data) =
      some (("\x7b\"a\": \"x\x7by\x7dz\"\x7d").data) := by
  refine ⟨?_, ?_, by decide⟩
  · intro text s hx
    unfold extract_first_json at hx
    rcases hab : afterBrace text with _ | tail
    · rw [hab] at hx
      exact Option.noConfusion hx
    · rw [hab] at hx
      have hx2 : scanJson ⟨0, false, false⟩ [] tail = some s := hx
      rcases afterBrace_some text tail hab with ⟨gap, hsplit, hnob, rest1, hhead⟩
      subst hhead
      have hstop0 : stopCond ⟨0, false, false⟩ '\x7b' = false := by decide
      have hstep0 : jstep ⟨0, false, false⟩ '\x7b' = ⟨1, false, false⟩ := by decide
      have hfold1 : ∀ q : List Char,
          jfold ⟨0, false, false⟩ ('\x7b' :: q) = jfold ⟨1, false, false⟩ q := by
        intro q
        show jfold (jstep ⟨0, false, false⟩ '\x7b') q = _
        rw [hstep0]
      have hred : scanJson ⟨0, false, false⟩ [] ('\x7b' :: rest1) =
          scanJson ⟨1, false, false⟩ ['\x7b'] rest1 := by
        simp [scanJson, hstop0, hstep0]
      rw [hred] at hx2
      rcases (scanJson_some_iff rest1 ⟨1, false, false⟩ ['\x7b'] s (by decide)).mp hx2
        with ⟨p, rest2, hp, hsplit2, hs, hz, hq⟩
      have hs' : s = '\x7b' :: p := hs
      have hzs : (jfold ⟨0, false, false⟩ s).count = 0 := by
        rw [hs', hfold1 p]
        exact hz
      have hqs : ∀ q q2, q ++ q2 = s → q ≠ [] → q2 ≠ [] →
          1 ≤ (jfold ⟨0, false, false⟩ q).count := by
        intro q q2 hqq hqne hq2ne
        cases q with
        | nil => exact absurd rfl hqne
        | cons a q' =>
          rw [hs'] at hqq
          simp only [List.cons_append, List.cons.injEq] at hqq
          obtain ⟨ha, hq'⟩ := hqq
          subst ha
          rw [hfold1 q']
          exact hq q' q2 hq' hq2ne
      have hsne : s ≠ [] := by
        rw [hs']
        simp
      refine ⟨gap, '\x7b' :: rest1, rest1, rest2, hsplit, hnob, rfl, ?_, hsne, hzs, hqs, ?_⟩
      · rw [hs, hsplit2, List.append_assoc]
        rfl
      · cases p with
        | nil =>
          exfalso
          have h2 := hzs
          rw [hs', hfold1 []] at h2
          exact absurd h2 (by decide)
        | cons b p'' =>
          rcases exists_last s hsne with ⟨s3, c, hlast⟩
          cases s3 with
          | nil =>
            exfalso
            rw [hs'] at hlast
            simp at hlast
          | cons d s3' =>
            have hs3ne : (d :: s3') ≠ ([] : List Char) := by simp
            have h1le : 1 ≤ (jfold ⟨0, false, false⟩ (d :: s3')).count :=
              hqs (d :: s3') [c] hlast.symm hs3ne (by simp)
            have hz0 : (jstep (jfold ⟨0, false, false⟩ (d :: s3')) c).count = 0 := by
              have h2 := hzs
              rw [hlast, jfold_split_last] at h2
              exact h2
            have hdec : (jstep (jfold ⟨0, false, false⟩ (d :: s3')) c).count <
                (jfold ⟨0, false, false⟩ (d :: s3')).count := by omega
            have hceq : c = '\x7d' := count_decrease_brace _ c hdec
            exact ⟨d :: s3', by rw [hlast, hceq]⟩
  · intro text hx
    unfold extract_first_json at hx
    rcases hab : afterBrace text with _ | tail
    · left
      exact (afterBrace_none text).mp hab
    · rw [hab] at hx
      have hx2 : scanJson ⟨0, false, false⟩ [] tail = none := hx
      rcases afterBrace_some text tail hab with ⟨gap, hsplit, hnob, rest1, hhead⟩
      subst hhead
      have hstop0 : stopCond ⟨0, false, false⟩ '\x7b' = false := by decide
      have hstep0 : jstep ⟨0, false, false⟩ '\x7b' = ⟨1, false, false⟩ := by decide
      have hfold1 : ∀ q : List Char,
          jfold ⟨0, false, false⟩ ('\x7b' :: q) = jfold ⟨1, false, false⟩ q := by
        intro q
        show jfold (jstep ⟨0, false, false⟩ '\x7b') q = _
        rw [hstep0]
      have hred : scanJson ⟨0, false, false⟩ [] ('\x7b' :: rest1) =
          scanJson ⟨1, false, false⟩ ['\x7b'] rest1 := by
        simp [scanJson, hstop0, hstep0]
      rw [hred] at hx2
      have hall := (scanJson_none_iff rest1 ⟨1, false, false⟩ ['\x7b'] (by decide)).mp hx2
      right
      refine ⟨gap, '\x7b' :: rest1, rest1, hsplit, rfl, ?_⟩
      intro p rest2 hsplit2 hpne
      cases p with
      | nil => exact absurd rfl hpne
      | cons a p' =>
        simp only [List.cons_append, List.cons.injEq] at hsplit2
        obtain ⟨ha, hrest⟩ := hsplit2
        subst ha
        rw [hfold1 p']
        exact hall p' rest2 hrest

/-- Claim C8 witness: the success characterisation applied to the
two-character input consisting of one brace pair. -/
theorem claim_C8_witness :
    ∃ gap tail rest1 rest2,
      (("\x7b\x7d").data : List Char) = gap ++ tail ∧ (∀ c ∈ gap, c ≠ '\x7b') ∧
      tail = '\x7b' :: rest1 ∧
      tail = (("\x7b\x7d").data : List Char) ++ rest2 ∧
      (("\x7b\x7d").data : List Char) ≠ [] ∧
      (jfold ⟨0, false, false⟩ (("\x7b\x7d").data)).count = 0 ∧
      (∀ q q2, q ++ q2 = (("\x7b\x7d").data : List Char) → q ≠ [] → q2 ≠ [] →
        1 ≤ (jfold ⟨0, false, false⟩ q).count) ∧
      ∃ s3, ("\x7b\x7d").data = s3 ++ ['\x7d'] :=
  claim_C8.1 (("\x7b\x7d").data) (("\x7b\x7d").data) (by decide)

/-! ### Importance weighting (src/weighting.py, src/evaluation.py lines 112-126)

The LLM call, code-fence stripping, regex block extraction and JSON
parsing of one attempt are summarised by the attempt's outcome: `none`
when no object was recovered, otherwise the recovered object, modelled by
which of the two accepted keys it carries. -/

/-- The parsed outcome of one weighting attempt: the optional values of
the two accepted key spellings. -/
structure WeightingDict where
  important_theses : Option (List Int)
  important_thesen : Option (List Int)
deriving DecidableEq, Repr

/-- The validity test of one attempt (src/weighting.py lines 49-50):
an object was recovered and one of the two keys is present. -/
def weighting_valid (w : Option WeightingDict) : Bool :=
  match w with
  | none => false
  | some d => d.important_theses.isSome || d.important_thesen.isSome

/-- The key normalisation (src/weighting.py lines 52-53): move a value
stored under the alternate spelling to the canonical key. -/
def normalize_weighting (d : WeightingDict) : WeightingDict :=
  if d.important_thesen.isSome && !d.important_theses.isSome then
    ⟨d.important_thesen, none⟩
  else d

/-- The retry loop of `get_weighting_result` (src/weighting.py
lines 29-66): take the first valid attempt, else fall back to the empty
dict. -/
def weighting_loop : List (Option WeightingDict) → WeightingDict
  | [] => ⟨none, none⟩
  | a :: rest =>
    match a with
    | some d =>
      if d.important_theses.isSome || d.important_thesen.isSome then
        normalize_weighting d
      else weighting_loop rest
    | none => weighting_loop rest

/-- `get_weighting_result`: at most `max_attempts = 5` attempts are
consumed. -/
def get_weighting_result (attempts : List (Option WeightingDict)) : WeightingDict :=
  weighting_loop (attempts.take 5)

/-- One aggregated (or raw) result row, reduced to the fields that the
weight-assignment pass reads and writes. -/
structure AggRow where
  question_nr : Int
  weighted : Int
deriving DecidableEq, Repr

/-- The weight-assignment pass of `evaluate_statements`
(src/evaluation.py lines 112-126): an empty weighting dict is falsy, so
every row gets weight 1; otherwise rows in the important set get 2 and
the rest get 1. -/
def set_weights (w : WeightingDict) (rows : List AggRow) : List AggRow :=
  if w.important_theses.isSome || w.important_thesen.isSome then
    let w2 := normalize_weighting w
    let iset := w2.important_theses.getD []
    rows.map (fun r => ⟨r.question_nr, if r.question_nr ∈ iset then 2 else 1⟩)
  else
    rows.map (fun r => ⟨r.question_nr, 1⟩)

theorem weighting_loop_empty :
    ∀ l : List (Option WeightingDict),
      (∀ a ∈ l, weighting_valid a = false) → weighting_loop l = ⟨none, none⟩ := by
  intro l
  induction l with
  | nil => intro _; rfl
  | cons a rest ih =>
    intro h
    rcases a with _ | d
    · show weighting_loop rest = _
      exact ih (fun x hx => h x (List.mem_cons_of_mem _ hx))
    · have hcond : (d.important_theses.isSome || d.important_thesen.isSome) = false :=
        h (some d) (List.mem_cons_self _ _)
      show (if d.important_theses.isSome || d.important_thesen.isSome then
          normalize_weighting d else weighting_loop rest) = _
      rw [hcond]
      simp only [Bool.false_eq_true, if_false]
      exact ih (fun x hx => h x (List.mem_cons_of_mem _ hx))

/-- Claim C4: when every weighting attempt fails to produce an object
with an importance-id list under either key spelling, the weighter
returns the empty dict (without raising), and the subsequent
weight-assignment pass gives every result row weight 1. -/
theorem claim_C4 (attempts : List (Option WeightingDict)) (rows : List AggRow)
    (r : AggRow) (h : ∀ a ∈ attempts, weighting_valid a = false)
    (hr : r ∈ set_weights (get_weighting_result attempts) rows) :
    get_weighting_result attempts = ⟨none, none⟩ ∧ r.weighted = 1 := by
  have hempty : get_weighting_result attempts = ⟨none, none⟩ := by
    unfold get_weighting_result
    refine weighting_loop_empty _ ?_
    intro a ha
    exact h a ((List.take_sublist 5 attempts).subset ha)
  refine ⟨hempty, ?_⟩
  rw [hempty] at hr
  have hr' : r ∈ rows.map (fun r => (⟨r.question_nr, 1⟩ : AggRow)) := hr
  rcases List.mem_map.mp hr' with ⟨r0, _, hr0⟩
  rw [← hr0]

/-- Claim C4 witness: five failed attempts and one result row. -/
theorem claim_C4_witness :
    get_weighting_result [none, none, none, none, none] = ⟨none, none⟩ ∧
    (⟨3, 1⟩ : AggRow).weighted = 1 :=
  claim_C4 [none, none, none, none, none] [⟨3, 0⟩] ⟨3, 1⟩ (by decide) (by decide)

/-! ### Single-question evaluator (src/evaluation.py lines 16-37)

`json.loads` is an external capability and is passed in as an argument
`jsonLoads`; an object it recovers is modelled by the optional string
values of its `answer` and `reason` fields. -/

/-- A JSON object as seen by the evaluator: the optional `answer` and
`reason` fields. -/
structure ParsedResponse where
  answer : Option (List Char)
  reason : Option (List Char)
deriving DecidableEq, Repr

/-- Python `str.rstrip()`. -/
def pyStripRight (s : List Char) : List Char := (s.reverse.dropWhile isPyWs).reverse

/-- `needle` occurs at the end of `hay`. -/
def trailsWith (needle hay : List Char) : Bool := leadsWith needle.reverse hay.reverse

/-- `clean_json_response` (src/llm_utils.py lines 161-168): strip, then
drop a leading markdown fence and a trailing fence. -/
def clean_json_response (s : List Char) : List Char :=
  let c := pyStrip s
  let c2 := if leadsWith (("```json\n").data) c then c.drop 8
    else if leadsWith (("```\n").data) c then c.drop 4 else c
  if trailsWith (("\n```").data) c2 then c2.take (c2.length - 4) else c2

/-- `robust_json_parse` (src/llm_utils.py lines 171-188): clean, parse;
on failure append one closing brace when the right-stripped text does not
already end in one, and retry once. -/
def robust_json_parse (jsonLoads : List Char → Option ParsedResponse)
    (response_text : List Char) : Option ParsedResponse :=
  let cleaned := clean_json_response response_text
  match jsonLoads cleaned with
  | some v => some v
  | none =>
    if !(trailsWith (("\x7d").data) (pyStripRight cleaned)) then
      jsonLoads (pyStripRight cleaned ++ ("\x7d").data)
    else none

/-- The dictionary built by `evaluate_statement_single` on success. -/
structure RawResp where
  id : Int
  answer : List Char
  numeric : Option Int
  reason : List Char
deriving DecidableEq, Repr

/-- `evaluate_statement_single` (src/evaluation.py lines 16-37): null
when the model call produced no text or no JSON object is recovered;
otherwise the row is built with `.get("answer", "")` defaults. -/
def evaluate_statement_single (jsonLoads : List Char → Option ParsedResponse)
    (qid : Int) (response_text : Option (List Char))
    (answer_mapping : List (List Char × Int)) : Option RawResp :=
  match response_text with
  | none => none
  | some t =>
    let cleaned_response := clean_json_response t
    match robust_json_parse jsonLoads cleaned_response with
    | none => none
    | some rj =>
      some ⟨qid, rj.answer.getD [],
        map_answer_to_numeric (rj.answer.getD []) answer_mapping,
        rj.reason.getD []⟩

/-- A parse capability that always recovers an object carrying only a
`reason` field (no `answer` field). -/
def jlNoAnswer : List Char → Option ParsedResponse :=
  fun _ => some ⟨none, some (("ok").data)⟩

/-- Claim C7 counterexample: on a response whose recovered JSON object
lacks an `answer` field, the evaluator does not return null — it returns
a row with empty answer text and null numeric stance. -/
theorem claim_C7_counterexample :
    evaluate_statement_single jlNoAnswer 7 (some (("\x7b\"reason\": \"ok\"\x7d").data))
      [((("stimme zu").data), 0), ((("stimme nicht zu").data), 1),
       ((("neutral").data), 2)] =
      some ⟨7, [], none, ("ok").data⟩ ∧
    (robust_json_parse jlNoAnswer
        (clean_json_response (("\x7b\"reason\": \"ok\"\x7d").data))).map
      ParsedResponse.answer = some none := by
  constructor
  · decide
  · decide

/-- Claim C7 (amended): the evaluator returns null exactly when the model
call returns no text or the parser recovers no JSON object; on a
recovered object it returns a row whose numeric stance is the
normalization of the object's answer field (defaulted to the empty
string when the field is missing), which may itself be null. -/
theorem claim_C7 (jsonLoads : List Char → Option ParsedResponse) (qid : Int)
    (response_text : Option (List Char)) (mapping : List (List Char × Int)) :
    (evaluate_statement_single jsonLoads qid response_text mapping = none ↔
      response_text = none ∨
      ∃ t, response_text = some t ∧
        robust_json_parse jsonLoads (clean_json_response t) = none) ∧
    (∀ t rj, response_text = some t →
      robust_json_parse jsonLoads (clean_json_response t) = some rj →
      evaluate_statement_single jsonLoads qid response_text mapping =
        some ⟨qid, rj.answer.getD [],
          map_answer_to_numeric (rj.answer.getD []) mapping,
          rj.reason.getD []⟩) := by
  rcases response_text with _ | t
  · constructor
    · constructor
      · intro _
        exact Or.inl rfl
      · intro _
        rfl
    · intro t rj ht
      exact absurd ht (by simp)
  · rcases hpr : robust_json_parse jsonLoads (clean_json_response t) with _ | rj
    · constructor
      · constructor
        · intro _
          exact Or.inr ⟨t, rfl, hpr⟩
        · intro _
          simp only [evaluate_statement_single, hpr]
      · intro t' rj' ht hpr'
        have ht' : t' = t := by
          injection ht with h1
          exact h1.symm
        rw [ht'] at hpr'
        rw [hpr] at hpr'
        exact absurd hpr' (by simp)
    · constructor
      · constructor
        · intro hbad
          simp only [evaluate_statement_single, hpr] at hbad
          exact absurd hbad (by simp)
        · rintro (h | ⟨t', ht', hpr'⟩)
          · exact absurd h (by simp)
          · have ht2 : t' = t := by
              injection ht' with h1
              exact h1.symm
            rw [ht2] at hpr'
            rw [hpr] at hpr'
            exact absurd hpr' (by simp)
      · intro t' rj' ht hpr'
        have ht' : t' = t := by
          injection ht with h1
          exact h1.symm
        rw [ht'] at hpr'
        rw [hpr] at hpr'
        have hrj : rj = rj' := by
          injection hpr' with h1
        simp only [evaluate_statement_single, hpr]
        rw [hrj]

/-- Claim C7 witness: the success branch applied to a concrete parse
capability and response text. -/
theorem claim_C7_witness :
    evaluate_statement_single jlNoAnswer 7 (some (("\x7b\"reason\": \"ok\"\x7d").data)) [] =
      some ⟨7, [], none, ("ok").data⟩ :=
  (claim_C7 jlNoAnswer 7 (some (("\x7b\"reason\": \"ok\"\x7d").data)) []).2
    (("\x7b\"reason\": \"ok\"\x7d").data) ⟨none, some (("ok").data)⟩ rfl (by decide)
